import Mathlib

/-!
Verification of the tug-stats diff-classification engine (src/tug-stats/src/logic.rs).

The engine is embedded shallowly:

* A Rust `HashMap<String, String>` is embedded as an association list
  (`Snap := List (String × String)`); the list order models the (arbitrary)
  hash-iteration order of the map, and well-formed maps have `Nodup` keys.
  A `HashSet<String>` is likewise a `List String`.
* Rust `f64` scores are embedded as `ℚ`.  Every number the engine produces is
  a ratio of small integers and every comparison made by the engine is a real
  comparison of such ratios, so `ℚ` is a faithful model (in particular there
  is no NaN: every division performed is guarded by a non-zero denominator).
* The line-diff primitive comes from the external crate `imara_diff`
  (Histogram algorithm), which is not part of this repository's sources.
  Modelled from the spec: the spec describes it as "a histogram/LCS-style
  line-diff primitive" whose hunks carry a before-range and an after-range;
  it is modelled here by a longest-common-subsequence line matching, so the
  sum of before-range lengths over all hunks is `before.length - lcs` and the
  sum of after-range lengths is `after.length - lcs`.
-/

/-- A snapshot: association list standing for `HashMap<String, String>`.
The list order models hash-iteration order. -/
abbrev Snap := List (String × String)

/-- The key set of a snapshot, in iteration order (`HashMap::keys`). -/
def keysOf (m : Snap) : List String := m.map Prod.fst

/-- `HashMap::get`: first binding of the key, if any. -/
def lookupS : Snap → String → Option String
  | [], _ => none
  | (a, v) :: rest, k => if a = k then some v else lookupS rest k

/-- The `FileStatus` enum of src/tug-stats/src/types.rs (u32 counts as Nat). -/
inductive FileStatus where
  | Added : String → Nat → FileStatus
  | Deleted : String → Nat → FileStatus
  | Modified : String → Nat → Nat → FileStatus
  | Renamed : String → String → Nat → Nat → FileStatus
  | Copied : String → String → Nat → Nat → FileStatus
  deriving DecidableEq, Repr

/-- Split a character list at newline characters (keeping empty segments),
mirroring line tokenization of the Rust side. -/
def splitLines : List Char → List (List Char)
  | [] => [[]]
  | c :: cs =>
    if c = '\n' then [] :: splitLines cs
    else
      match splitLines cs with
      | [] => [[c]]
      | l :: ls => (c :: l) :: ls

/-- The lines of a string in the sense of Rust `str::lines` (and of the diff
tokenizer): split at newlines, a trailing final newline produces no extra
empty line. -/
def linesOf (s : String) : List String :=
  let parts := (splitLines s.data).map (fun l => String.mk l)
  if parts.getLast? = some "" then parts.dropLast else parts

/-- Fueled longest-common-subsequence length on line lists (the fuel makes the
recursion structural so that it evaluates in the kernel). -/
def lcsLenF : Nat → List String → List String → Nat
  | 0, _, _ => 0
  | _ + 1, [], _ => 0
  | _ + 1, _ :: _, [] => 0
  | f + 1, a :: as, b :: bs =>
    if a = b then lcsLenF f as bs + 1
    else max (lcsLenF f as (b :: bs)) (lcsLenF f (a :: as) bs)

/-- Modelled from the spec: length of the line matching produced by the
line-diff primitive (external crate `imara_diff`, Histogram algorithm, absent
from this repository's sources), modelled as the LCS of the two line lists.
The fuel `xs.length + ys.length` is enough for the recursion to finish. -/
def lcsLen (xs ys : List String) : Nat := lcsLenF (xs.length + ys.length) xs ys

/-- `calculate_diff_stats` of logic.rs: `(added, removed)` line counts; the sum
over hunks of after-range lengths is `after.length - lcs`, of before-range
lengths `before.length - lcs` (see `lcsLen` for the diff model). -/
def calculate_diff_stats (s1 s2 : String) : Nat × Nat :=
  if s1 = s2 then (0, 0)
  else
    let before := linesOf s1
    let after := linesOf s2
    let m := lcsLen before after
    (after.length - m, before.length - m)

/-- `calculate_similarity` of logic.rs with `f64` embedded as `ℚ`.
`String.utf8ByteSize` models Rust `str::len` (UTF-8 byte length).  The real
divisions and subtraction of the source are written with `mkRat` on `Int`,
which is provably the same rational (see `calculate_similarity_formula`)
while remaining kernel-computable. -/
def calculate_similarity (s1 s2 : String) : ℚ :=
  if s1 = s2 then 1
  else if s1 = "" ∨ s2 = "" then 0
  else
    let len1 := s1.utf8ByteSize
    let len2 := s2.utf8ByteSize
    let maxLen := max len1 len2
    let minLen := min len1 len2
    if mkRat (minLen : Int) maxLen < mkRat 1 2 then 0
    else
      let before := linesOf s1
      let after := linesOf s2
      let m := lcsLen before after
      let changes := (before.length - m) + (after.length - m)
      let total := before.length + after.length
      if total = 0 then 1
      else mkRat ((total : Int) - (changes : Int)) total

/-- One iteration of the `for cand in candidates` loop of `find_best_match`
in logic.rs, with its mutable `best` (ties keep the earliest candidate in
iteration order, as the strict `score > s` does). -/
def fbmStep (target_content : String) (sources : Snap)
    (best : Option (String × ℚ)) (cand : String) : Option (String × ℚ) :=
  match lookupS sources cand with
  | none => best
  | some source_content =>
    let score := calculate_similarity source_content target_content
    if score > mkRat 1 2 then
      match best with
      | some (_, s) => if score > s then some (cand, score) else best
      | none => some (cand, score)
    else best

/-- `find_best_match` of logic.rs: best candidate with similarity above 1/2. -/
def find_best_match (target_content : String) (candidates : List String)
    (sources : Snap) : Option (String × ℚ) :=
  candidates.foldl (fbmStep target_content sources) none

/-- Step 1 of `compute_diff`: `added_paths = new_paths − old_manifest`. -/
def addedPathsOf (new_files : Snap) (old_manifest : List String) : List String :=
  (keysOf new_files).filter (fun p => decide (p ∉ old_manifest))

/-- Step 1 of `compute_diff`: `deleted_paths = old_manifest − new_paths`. -/
def deletedPathsOf (new_files : Snap) (old_manifest : List String) : List String :=
  old_manifest.filter (fun p => decide (p ∉ keysOf new_files))

/-- Step 1 of `compute_diff`: `common_paths = old_manifest ∩ new_paths`. -/
def commonPathsOf (new_files : Snap) (old_manifest : List String) : List String :=
  old_manifest.filter (fun p => decide (p ∈ keysOf new_files))

/-- Body of the per-common-path modification check of `compute_diff` (the two
`?` lookups drop a path whose content is missing on either side). -/
def modCheck (new_files old_files : Snap) (path : String) : Option FileStatus :=
  match lookupS old_files path, lookupS new_files path with
  | some o, some n =>
    if o ≠ n then
      let st := calculate_diff_stats o n
      some (FileStatus.Modified path st.1 st.2)
    else none
  | _, _ => none

/-- Step 2 of `compute_diff`: the Modified records for common paths. -/
def modResultsOf (new_files old_files : Snap) (old_manifest : List String) :
    List FileStatus :=
  (commonPathsOf new_files old_manifest).filterMap (modCheck new_files old_files)

/-- Body of the per-added-path rename candidate search of `compute_diff`.
The direct index `new_files[added_path]` of the source is modelled by
`getD ""`; it is proved never to fall back. -/
def renameCandidateFor (new_files old_files : Snap) (old_manifest : List String)
    (ap : String) : Option (String × String × ℚ) :=
  let target := (lookupS new_files ap).getD ""
  (find_best_match target (deletedPathsOf new_files old_manifest) old_files).map
    (fun bs => (ap, bs.1, bs.2))

/-- Step 3 of `compute_diff`: one best rename candidate `(added, deleted,
score)` per added path. -/
def renameCandidatesOf (new_files old_files : Snap) (old_manifest : List String) :
    List (String × String × ℚ) :=
  (addedPathsOf new_files old_manifest).filterMap
    (renameCandidateFor new_files old_files old_manifest)

/-- Stable insertion used to model Rust's stable `slice::sort_by`. -/
def insertS {α : Type} (le : α → α → Bool) (a : α) : List α → List α
  | [] => [a]
  | b :: bs => if le a b then a :: b :: bs else b :: insertS le a bs

/-- Stable sort (insertion sort) modelling Rust's stable `slice::sort_by`:
elements comparing equal keep their original relative order. -/
def sortI {α : Type} (le : α → α → Bool) (l : List α) : List α :=
  l.foldr (insertS le) []

/-- The candidate comparator `|a, b| b.score.partial_cmp(&a.score)`:
descending by score. -/
def candLe (a b : String × String × ℚ) : Bool := decide (b.2.2 ≤ a.2.2)

/-- The rename candidates sorted by score descending (stable). -/
def sortedCandidatesOf (new_files old_files : Snap) (old_manifest : List String) :
    List (String × String × ℚ) :=
  sortI candLe (renameCandidatesOf new_files old_files old_manifest)

/-- The mutable state of the serial rename-resolution loop: the growing
`results` vector, `final_added_paths` and `deleted_paths`. -/
structure ResolveState where
  results : List FileStatus
  finalAdded : List String
  deleted : List String
  deriving Repr, DecidableEq

/-- One iteration of the rename-resolution `for` loop of `compute_diff`.
The direct indexes `old_files[&cand.deleted_path]` and
`new_files[&cand.added_path]` are modelled by `getD ""` (proved to never
fall back). -/
def resolveStep (new_files old_files : Snap) (st : ResolveState)
    (cand : String × String × ℚ) : ResolveState :=
  if cand.1 ∈ st.finalAdded ∧ cand.2.1 ∈ st.deleted then
    let old_content := (lookupS old_files cand.2.1).getD ""
    let new_content := (lookupS new_files cand.1).getD ""
    let stats := calculate_diff_stats old_content new_content
    { results := st.results ++ [FileStatus.Renamed cand.2.1 cand.1 stats.1 stats.2]
      finalAdded := st.finalAdded.erase cand.1
      deleted := st.deleted.erase cand.2.1 }
  else st

/-- The serial rename-resolution loop of `compute_diff`. -/
def resolveRenames (new_files old_files : Snap)
    (cands : List (String × String × ℚ)) (init : ResolveState) : ResolveState :=
  cands.foldl (resolveStep new_files old_files) init

/-- State entering the rename-resolution loop: Modified records gathered,
pools fully populated. -/
def resolveInit (new_files old_files : Snap) (old_manifest : List String) :
    ResolveState :=
  { results := modResultsOf new_files old_files old_manifest
    finalAdded := addedPathsOf new_files old_manifest
    deleted := deletedPathsOf new_files old_manifest }

/-- State after rename resolution. -/
def resolvedState (new_files old_files : Snap) (old_manifest : List String) :
    ResolveState :=
  resolveRenames new_files old_files
    (sortedCandidatesOf new_files old_files old_manifest)
    (resolveInit new_files old_files old_manifest)

/-- Step 4 of `compute_diff`, inner loop: best copy source for one target
content, mirroring the fold over `available_sources = old_files.keys()` with
`best_score` starting at the threshold 1/2 and strict improvement. -/
def copyStep (target_content : String) (old_files : Snap)
    (best : Option String × ℚ) (src : String) : Option String × ℚ :=
  match lookupS old_files src with
  | some source_content =>
    let score := calculate_similarity source_content target_content
    if score > best.2 then (some src, score) else best
  | none => best

/-- Step 4 of `compute_diff`, inner fold over `available_sources`. -/
def bestCopySource (old_files : Snap) (target_content : String) : Option String :=
  ((keysOf old_files).foldl (copyStep target_content old_files) (none, mkRat 1 2)).1

/-- Body of the per-added-path copy check of `compute_diff`.  The direct
indexes `new_files[added_path]` and `old_files[&src]` are modelled by
`getD ""` (proved to never fall back). -/
def copyCheck (new_files old_files : Snap) (ap : String) : Option FileStatus :=
  let target := (lookupS new_files ap).getD ""
  match bestCopySource old_files target with
  | some src =>
    if src ≠ ap then
      let stats := calculate_diff_stats ((lookupS old_files src).getD "") target
      some (FileStatus.Copied src ap stats.1 stats.2)
    else none
  | none => none

/-- Step 4 of `compute_diff`: the Copied records for the paths still in
`final_added_paths` after rename resolution. -/
def copyResultsOf (new_files old_files : Snap) (finalAdded : List String) :
    List FileStatus :=
  finalAdded.filterMap (copyCheck new_files old_files)

/-- The copy records produced by `compute_diff`. -/
def copiesOf (new_files old_files : Snap) (old_manifest : List String) :
    List FileStatus :=
  copyResultsOf new_files old_files
    (resolvedState new_files old_files old_manifest).finalAdded

/-- Removal of copy destinations from `final_added_paths` (the `for res in
copy_results` loop). -/
def removeCopyDests (copies : List FileStatus) (fa : List String) : List String :=
  copies.foldl
    (fun fa r =>
      match r with
      | FileStatus.Copied _ d _ _ => fa.erase d
      | _ => fa)
    fa

/-- `final_added_paths` after the copy loop. -/
def finalAddedSet (new_files old_files : Snap) (old_manifest : List String) :
    List String :=
  removeCopyDests (copiesOf new_files old_files old_manifest)
    (resolvedState new_files old_files old_manifest).finalAdded

/-- Step 5 of `compute_diff`: flush of unclaimed added paths
(`new_files.get(p).map(lines().count()).unwrap_or(0)`). -/
def addedFlushOf (new_files : Snap) (fa : List String) : List FileStatus :=
  fa.map (fun p =>
    FileStatus.Added p (((lookupS new_files p).map (fun s => (linesOf s).length)).getD 0))

/-- Step 5 of `compute_diff`: flush of unclaimed deleted paths. -/
def deletedFlushOf (old_files : Snap) (del : List String) : List FileStatus :=
  del.map (fun p =>
    FileStatus.Deleted p (((lookupS old_files p).map (fun s => (linesOf s).length)).getD 0))

/-- `get_sort_key` of logic.rs: the record's target path. -/
def get_sort_key : FileStatus → String
  | FileStatus.Added p _ => p
  | FileStatus.Deleted p _ => p
  | FileStatus.Modified p _ _ => p
  | FileStatus.Renamed _ n _ _ => n
  | FileStatus.Copied _ d _ _ => d

/-- Lexicographic order on character lists (code points), kernel-computable.
On UTF-8 strings this agrees with Rust's byte-lexicographic `String::cmp`. -/
def lexLe : List Char → List Char → Bool
  | [], _ => true
  | _ :: _, [] => false
  | a :: as, b :: bs => if a = b then lexLe as bs else decide (a < b)

/-- The record comparator of the final sort (lexical on the target path). -/
def statusLe (a b : FileStatus) : Bool := lexLe (get_sort_key a).data (get_sort_key b).data

/-- All records of one run, in pre-sort order: Modified and Renamed (grown in
the resolution loop), then Copied, then flushed Added, then flushed Deleted. -/
def preSortResults (new_files old_files : Snap) (old_manifest : List String) :
    List FileStatus :=
  (resolvedState new_files old_files old_manifest).results
    ++ copiesOf new_files old_files old_manifest
    ++ addedFlushOf new_files (finalAddedSet new_files old_files old_manifest)
    ++ deletedFlushOf old_files (resolvedState new_files old_files old_manifest).deleted

/-- `compute_diff` of logic.rs.  The association-list order of the two
snapshots models the hash-iteration order of the corresponding `HashMap`s;
`old_manifest` likewise models the `HashSet` iteration order. -/
def compute_diff (new_files old_files : Snap) (old_manifest : List String) :
    List FileStatus :=
  sortI statusLe (preSortResults new_files old_files old_manifest)

/-- The new sides of the Renamed records of a list. -/
def renNews (l : List FileStatus) : List String :=
  l.filterMap (fun r =>
    match r with
    | FileStatus.Renamed _ n _ _ => some n
    | _ => none)

/-- The old sides of the Renamed records of a list. -/
def renOlds (l : List FileStatus) : List String :=
  l.filterMap (fun r =>
    match r with
    | FileStatus.Renamed o _ _ _ => some o
    | _ => none)

/-- Whether a record mentions a path in any of its fields. -/
def mentions (p : String) : FileStatus → Bool
  | FileStatus.Added q _ => q = p
  | FileStatus.Deleted q _ => q = p
  | FileStatus.Modified q _ _ => q = p
  | FileStatus.Renamed o n _ _ => o = p || n = p
  | FileStatus.Copied s d _ _ => s = p || d = p


/-! ## Basic lemmas -/

theorem lookupS_isSome_iff {m : Snap} {k : String} :
    (lookupS m k).isSome ↔ k ∈ keysOf m := by
  induction m with
  | nil => simp [lookupS, keysOf]
  | cons kv rest ih =>
    obtain ⟨a, v⟩ := kv
    by_cases h : a = k
    · subst h; simp [lookupS, keysOf]
    · simp [lookupS, keysOf, h, ih, Ne.symm h]

theorem lookupS_eq_none_iff {m : Snap} {k : String} :
    lookupS m k = none ↔ k ∉ keysOf m := by
  rw [← lookupS_isSome_iff, Option.isSome_iff_ne_none]
  tauto

theorem insertS_perm {α : Type} (le : α → α → Bool) (a : α) (l : List α) :
    (insertS le a l).Perm (a :: l) := by
  induction l with
  | nil => simp [insertS]
  | cons b bs ih =>
    rw [insertS]
    split
    · exact List.Perm.refl _
    · exact (ih.cons b).trans (List.Perm.swap a b bs)

theorem sortI_perm {α : Type} (le : α → α → Bool) (l : List α) :
    (sortI le l).Perm l := by
  induction l with
  | nil => exact List.Perm.refl _
  | cons a as ih =>
    exact ((insertS_perm le a (sortI le as)).trans (ih.cons a))

theorem mem_sortI {α : Type} {le : α → α → Bool} {l : List α} {a : α} :
    a ∈ sortI le l ↔ a ∈ l :=
  (sortI_perm le l).mem_iff

/-! ## Similarity engine: claims C5, C6, C7 -/

/-- Claim C5: for every string s, `calculate_similarity s s` is exactly 1, and
for every non-empty s, `calculate_similarity` of s against the empty string
(either side) is exactly 0. -/
theorem calculate_similarity_self_empty (s : String) :
    calculate_similarity s s = 1 ∧
      (s ≠ "" → calculate_similarity s "" = 0 ∧ calculate_similarity "" s = 0) := by
  refine ⟨by rw [calculate_similarity, if_pos rfl], fun hs => ⟨?_, ?_⟩⟩
  · rw [calculate_similarity, if_neg hs, if_pos (Or.inr rfl)]
  · rw [calculate_similarity, if_neg (fun h => hs h.symm), if_pos (Or.inl rfl)]

/-- Witness for `calculate_similarity_self_empty` at s = "a". -/
theorem calculate_similarity_self_empty_witness :
    calculate_similarity "a" "a" = 1 ∧
      (calculate_similarity "a" "" = 0 ∧ calculate_similarity "" "a" = 0) :=
  ⟨(calculate_similarity_self_empty "a").1,
    (calculate_similarity_self_empty "a").2 (by decide)⟩

/-- Claim C7: for distinct non-empty inputs whose byte-length ratio
min/max is below 1/2, `calculate_similarity` returns exactly 0 (the
fast-reject branch, taken before the line diff runs). -/
theorem calculate_similarity_fast_reject (a b : String) (hab : a ≠ b)
    (ha : a ≠ "") (hb : b ≠ "")
    (hr : mkRat ((min a.utf8ByteSize b.utf8ByteSize : Nat) : Int)
        (max a.utf8ByteSize b.utf8ByteSize) < mkRat 1 2) :
    calculate_similarity a b = 0 := by
  simp only [calculate_similarity]
  rw [if_neg hab, if_neg (by simp [ha, hb]), if_pos hr]

/-- Witness for `calculate_similarity_fast_reject` at a = "aaaa", b = "a". -/
theorem calculate_similarity_fast_reject_witness :
    calculate_similarity "aaaa" "a" = 0 :=
  calculate_similarity_fast_reject "aaaa" "a" (by decide) (by decide) (by decide)
    (by decide)

/-- Range of the similarity score, shared by several results below. -/
theorem calculate_similarity_nonneg_le_one (a b : String) :
    0 ≤ calculate_similarity a b ∧ calculate_similarity a b ≤ 1 := by
  simp only [calculate_similarity]
  split_ifs with h1 h2 h3 h4
  · exact ⟨zero_le_one, le_refl 1⟩
  · exact ⟨le_refl 0, zero_le_one⟩
  · exact ⟨le_refl 0, zero_le_one⟩
  · exact ⟨zero_le_one, le_refl 1⟩
  · set x := (linesOf a).length with hX
    set y := (linesOf b).length with hY
    set m := lcsLen (linesOf a) (linesOf b) with hM
    have hc : (x - m) + (y - m) ≤ x + y :=
      Nat.add_le_add (Nat.sub_le x m) (Nat.sub_le y m)
    have ht : 0 < x + y := Nat.pos_of_ne_zero h4
    rw [Rat.mkRat_eq_div]
    constructor
    · apply div_nonneg
      · have : (0 : Int) ≤ ((x + y : Nat) : Int) - ((x - m + (y - m) : Nat) : Int) :=
          Int.sub_nonneg.mpr (by exact_mod_cast hc)
        exact_mod_cast this
      · positivity
    · rw [div_le_one (by exact_mod_cast ht)]
      have : ((x + y : Nat) : Int) - ((x - m + (y - m) : Nat) : Int) ≤ ((x + y : Nat) : Int) :=
        Int.sub_le_self _ (by exact_mod_cast Nat.zero_le (x - m + (y - m)))
      exact_mod_cast this

/-- Claim C6: `calculate_similarity` always lies in [0, 1]; and when the line
diff actually runs (distinct non-empty inputs, byte-size ratio at least 1/2)
the result is 1 - changed/total, where changed is the number of changed lines
on both sides as produced by the diff model and total the combined line
count (1 when total is 0). -/
theorem calculate_similarity_range_formula (a b : String) :
    (0 ≤ calculate_similarity a b ∧ calculate_similarity a b ≤ 1) ∧
      (a ≠ b → a ≠ "" → b ≠ "" →
        ¬ mkRat ((min a.utf8ByteSize b.utf8ByteSize : Nat) : Int)
            (max a.utf8ByteSize b.utf8ByteSize) < mkRat 1 2 →
        calculate_similarity a b =
          if (linesOf a).length + (linesOf b).length = 0 then 1
          else 1 -
            ((((linesOf a).length - lcsLen (linesOf a) (linesOf b)) +
                ((linesOf b).length - lcsLen (linesOf a) (linesOf b)) : Nat) : ℚ) /
              (((linesOf a).length + (linesOf b).length : Nat) : ℚ)) := by
  refine ⟨calculate_similarity_nonneg_le_one a b, ?_⟩
  intro hab ha hb hr
  simp only [calculate_similarity]
  rw [if_neg hab, if_neg (by simp [ha, hb]), if_neg hr]
  set x := (linesOf a).length with hX
  set y := (linesOf b).length with hY
  set m := lcsLen (linesOf a) (linesOf b) with hM
  split_ifs with htot
  · rfl
  · rw [Rat.mkRat_eq_div]
    have ht0 : ((x + y : Nat) : ℚ) ≠ 0 := by exact_mod_cast htot
    set c := x - m + (y - m) with hC
    push_cast
    push_cast at ht0
    rw [sub_div, div_self ht0]

/-- Witness for `calculate_similarity_range_formula` at a = "x\ny\n",
b = "x\nz\n". -/
theorem calculate_similarity_range_formula_witness :
    calculate_similarity "x\ny\n" "x\nz\n" =
      if (linesOf "x\ny\n").length + (linesOf "x\nz\n").length = 0 then 1
      else 1 -
        ((((linesOf "x\ny\n").length - lcsLen (linesOf "x\ny\n") (linesOf "x\nz\n")) +
            ((linesOf "x\nz\n").length - lcsLen (linesOf "x\ny\n") (linesOf "x\nz\n")) : Nat) : ℚ) /
          (((linesOf "x\ny\n").length + (linesOf "x\nz\n").length : Nat) : ℚ) :=
  (calculate_similarity_range_formula "x\ny\n" "x\nz\n").2 (by decide) (by decide)
    (by decide) (by decide)

/-! ## Generic filterMap lemmas -/

theorem map_filterMap_sublist {α β : Type} (f : α → Option β) (g : β → α)
    (hfg : ∀ a b, f a = some b → g b = a) (l : List α) :
    ((l.filterMap f).map g).Sublist l := by
  induction l with
  | nil => simp
  | cons a as ih =>
    rw [List.filterMap_cons]
    cases h : f a with
    | none => exact ih.cons a
    | some b => rw [List.map_cons, hfg a b h]; exact ih.cons₂ a

theorem filterMap_sublist_map {α β : Type} (f : α → Option β) (g : α → β)
    (hfg : ∀ a b, f a = some b → g a = b) (l : List α) :
    (l.filterMap f).Sublist (l.map g) := by
  induction l with
  | nil => simp
  | cons a as ih =>
    rw [List.filterMap_cons, List.map_cons]
    cases h : f a with
    | none => exact ih.cons (g a)
    | some b => rw [hfg a b h]; exact ih.cons₂ b

/-! ## Specifications of the stage functions -/

theorem fbm_fold_spec (t : String) (srcs : Snap) (cands : List String) :
    ∀ (acc : Option (String × ℚ)) (c : String) (s : ℚ),
      cands.foldl (fbmStep t srcs) acc = some (c, s) →
      acc = some (c, s) ∨
        (c ∈ cands ∧ ∃ ct, lookupS srcs c = some ct ∧ s = calculate_similarity ct t) := by
  induction cands with
  | nil => intro acc c s h; exact Or.inl h
  | cons c0 cs ih =>
    intro acc c s h
    rw [List.foldl_cons] at h
    rcases ih (fbmStep t srcs acc c0) c s h with h1 | h1
    · rw [fbmStep] at h1
      cases hl : lookupS srcs c0 with
      | none => rw [hl] at h1; exact Or.inl h1
      | some ct =>
        rw [hl] at h1
        simp only at h1
        split at h1
        · cases acc with
          | none =>
            simp only [Option.some.injEq, Prod.mk.injEq] at h1
            obtain ⟨hc, hs⟩ := h1
            subst hc; subst hs
            exact Or.inr ⟨List.mem_cons_self _ _, ct, hl, rfl⟩
          | some p =>
            obtain ⟨p1, p2⟩ := p
            simp only at h1
            split at h1
            · simp only [Option.some.injEq, Prod.mk.injEq] at h1
              obtain ⟨hc, hs⟩ := h1
              subst hc; subst hs
              exact Or.inr ⟨List.mem_cons_self _ _, ct, hl, rfl⟩
            · exact Or.inl h1
        · exact Or.inl h1
    · exact Or.inr ⟨List.mem_cons_of_mem c0 h1.1, h1.2⟩

theorem find_best_match_spec {t : String} {cands : List String} {srcs : Snap}
    {c : String} {s : ℚ} (h : find_best_match t cands srcs = some (c, s)) :
    c ∈ cands ∧ ∃ ct, lookupS srcs c = some ct ∧ s = calculate_similarity ct t := by
  rcases fbm_fold_spec t srcs cands none c s h with h1 | h1
  · exact absurd h1 (by simp)
  · exact h1

theorem copy_fold_spec (t : String) (o : Snap) (srcList : List String) :
    ∀ (acc : Option String × ℚ) (src : String),
      (srcList.foldl (copyStep t o) acc).1 = some src →
      acc.1 = some src ∨ src ∈ srcList := by
  induction srcList with
  | nil => intro acc src h; exact Or.inl h
  | cons s0 ss ih =>
    intro acc src h
    rw [List.foldl_cons] at h
    rcases ih (copyStep t o acc s0) src h with h1 | h1
    · rw [copyStep] at h1
      cases hl : lookupS o s0 with
      | none => rw [hl] at h1; exact Or.inl h1
      | some ct =>
        rw [hl] at h1
        simp only at h1
        split at h1
        · simp only [Option.some.injEq] at h1
          exact Or.inr (h1 ▸ List.mem_cons_self s0 ss)
        · exact Or.inl h1
    · exact Or.inr (List.mem_cons_of_mem s0 h1)

theorem bestCopySource_mem {o : Snap} {t : String} {src : String}
    (h : bestCopySource o t = some src) : src ∈ keysOf o := by
  rcases copy_fold_spec t o (keysOf o) (none, mkRat 1 2) src h with h1 | h1
  · exact absurd h1 (by simp)
  · exact h1

theorem modCheck_spec {n o : Snap} {q : String} {r : FileStatus}
    (h : modCheck n o q = some r) :
    ∃ a b, r = FileStatus.Modified q a b ∧ (lookupS o q).isSome ∧
      (lookupS n q).isSome := by
  rw [modCheck] at h
  cases ho : lookupS o q with
  | none => rw [ho] at h; simp at h
  | some oc =>
    cases hn : lookupS n q with
    | none => rw [ho, hn] at h; simp at h
    | some nc =>
      rw [ho, hn] at h
      simp only at h
      split at h
      · simp only [Option.some.injEq] at h
        exact ⟨_, _, h.symm, rfl, rfl⟩
      · simp at h

theorem renameCandidateFor_spec {n o : Snap} {m : List String} {ap : String}
    {c : String × String × ℚ} (h : renameCandidateFor n o m ap = some c) :
    c.1 = ap ∧
      find_best_match ((lookupS n ap).getD "") (deletedPathsOf n m) o =
        some (c.2.1, c.2.2) := by
  rw [renameCandidateFor] at h
  cases hf : find_best_match ((lookupS n ap).getD "") (deletedPathsOf n m) o with
  | none => rw [hf] at h; simp at h
  | some bs =>
    rw [hf] at h
    simp only [Option.map_some', Option.some.injEq] at h
    subst h
    exact ⟨rfl, rfl⟩

theorem copyCheck_spec {n o : Snap} {ap : String} {r : FileStatus}
    (h : copyCheck n o ap = some r) :
    ∃ src a b, r = FileStatus.Copied src ap a b ∧
      bestCopySource o ((lookupS n ap).getD "") = some src ∧ src ≠ ap := by
  rw [copyCheck] at h
  cases hb : bestCopySource o ((lookupS n ap).getD "") with
  | none => rw [hb] at h; simp at h
  | some src =>
    rw [hb] at h
    simp only at h
    split at h
    · simp only [Option.some.injEq] at h
      exact ⟨src, _, _, h.symm, rfl, by assumption⟩
    · simp at h

theorem modResultsOf_targets_sublist (n o : Snap) (m : List String) :
    ((modResultsOf n o m).map get_sort_key).Sublist (commonPathsOf n m) := by
  apply map_filterMap_sublist
  intro q r hf
  obtain ⟨a, b, hr, _, _⟩ := modCheck_spec hf
  rw [hr]; rfl

theorem renameCandidatesOf_fst_sublist (n o : Snap) (m : List String) :
    ((renameCandidatesOf n o m).map Prod.fst).Sublist (addedPathsOf n m) := by
  apply map_filterMap_sublist
  intro q c hf
  exact (renameCandidateFor_spec hf).1

theorem copyResultsOf_dests_sublist (n o : Snap) (fa : List String) :
    ((copyResultsOf n o fa).map get_sort_key).Sublist fa := by
  apply map_filterMap_sublist
  intro q r hf
  obtain ⟨src, a, b, hr, _, _⟩ := copyCheck_spec hf
  rw [hr]; rfl

theorem copyResultsOf_mem {n o : Snap} {fa : List String} {r : FileStatus}
    (h : r ∈ copyResultsOf n o fa) :
    ∃ src d a b, r = FileStatus.Copied src d a b ∧ d ∈ fa ∧
      src ∈ keysOf o ∧ src ≠ d := by
  rw [copyResultsOf, List.mem_filterMap] at h
  obtain ⟨d, hd, hf⟩ := h
  obtain ⟨src, a, b, hr, hb, hne⟩ := copyCheck_spec hf
  exact ⟨src, d, a, b, hr, hd, bestCopySource_mem hb, hne⟩

theorem modResultsOf_mem {n o : Snap} {m : List String} {r : FileStatus}
    (h : r ∈ modResultsOf n o m) :
    ∃ q a b, r = FileStatus.Modified q a b ∧ q ∈ commonPathsOf n m ∧
      (lookupS o q).isSome ∧ (lookupS n q).isSome := by
  rw [modResultsOf, List.mem_filterMap] at h
  obtain ⟨q, hq, hf⟩ := h
  obtain ⟨a, b, hr, h1, h2⟩ := modCheck_spec hf
  exact ⟨q, a, b, hr, hq, h1, h2⟩

theorem renameCandidatesOf_mem {n o : Snap} {m : List String}
    {c : String × String × ℚ} (h : c ∈ renameCandidatesOf n o m) :
    c.1 ∈ addedPathsOf n m ∧ c.2.1 ∈ deletedPathsOf n m ∧
      (lookupS o c.2.1).isSome := by
  rw [renameCandidatesOf, List.mem_filterMap] at h
  obtain ⟨ap, hap, hf⟩ := h
  obtain ⟨h1, h2⟩ := renameCandidateFor_spec hf
  obtain ⟨hmem, ct, hct, _⟩ := find_best_match_spec h2
  exact ⟨h1 ▸ hap, hmem, by rw [hct]; rfl⟩

/-! ## Set algebra of the three derived path pools -/

theorem addedPathsOf_spec {n : Snap} {m : List String} {p : String} :
    p ∈ addedPathsOf n m ↔ p ∈ keysOf n ∧ p ∉ m := by
  simp [addedPathsOf, List.mem_filter]

theorem deletedPathsOf_spec {n : Snap} {m : List String} {p : String} :
    p ∈ deletedPathsOf n m ↔ p ∈ m ∧ p ∉ keysOf n := by
  simp [deletedPathsOf, List.mem_filter]

theorem commonPathsOf_spec {n : Snap} {m : List String} {p : String} :
    p ∈ commonPathsOf n m ↔ p ∈ m ∧ p ∈ keysOf n := by
  simp [commonPathsOf, List.mem_filter]

theorem addedPathsOf_nodup {n : Snap} (m : List String)
    (h : (keysOf n).Nodup) : (addedPathsOf n m).Nodup := h.filter _

theorem deletedPathsOf_nodup (n : Snap) {m : List String}
    (h : m.Nodup) : (deletedPathsOf n m).Nodup := h.filter _

theorem commonPathsOf_nodup (n : Snap) {m : List String}
    (h : m.Nodup) : (commonPathsOf n m).Nodup := h.filter _

/-! ## The rename-resolution invariant -/

/-- Shape of a record in the results vector while the rename-resolution loop
runs: only Modified records (from step 2) and Renamed records (committed by
the loop), with their paths in the right pools. -/
def ROk (n o : Snap) (m : List String) : FileStatus → Prop
  | FileStatus.Modified q _ _ => q ∈ commonPathsOf n m ∧ (lookupS o q).isSome
  | FileStatus.Renamed ol nw _ _ => ol ∈ deletedPathsOf n m ∧ nw ∈ addedPathsOf n m
  | _ => False

/-- Invariant of the rename-resolution loop of `compute_diff`. -/
structure RInv (n o : Snap) (m : List String) (st : ResolveState) : Prop where
  fa_sub : st.finalAdded.Sublist (addedPathsOf n m)
  del_sub : st.deleted.Sublist (deletedPathsOf n m)
  tg_nodup : (st.results.map get_sort_key).Nodup
  fa_fresh : ∀ p ∈ st.finalAdded, p ∉ st.results.map get_sort_key
  shapes : ∀ r ∈ st.results, ROk n o m r
  olds_nodup : (renOlds st.results).Nodup
  del_fresh : ∀ p ∈ st.deleted, p ∉ renOlds st.results

theorem renOlds_eq_nil {l : List FileStatus}
    (h : ∀ r ∈ l, ∀ ol nw a b, r ≠ FileStatus.Renamed ol nw a b) :
    renOlds l = [] := by
  induction l with
  | nil => rfl
  | cons r rs ih =>
    have tail : renOlds rs = [] := ih (fun r hr => h r (List.mem_cons_of_mem _ hr))
    have head := h r (List.mem_cons_self _ _)
    cases r with
    | Renamed ol nw a b => exact absurd rfl (head ol nw a b)
    | Added p c => simpa [renOlds, List.filterMap_cons] using tail
    | Deleted p c => simpa [renOlds, List.filterMap_cons] using tail
    | Modified p a b => simpa [renOlds, List.filterMap_cons] using tail
    | Copied s d a b => simpa [renOlds, List.filterMap_cons] using tail

theorem resolveStep_inv {n o : Snap} {m : List String} {st : ResolveState}
    (hka : (addedPathsOf n m).Nodup) (hkd : (deletedPathsOf n m).Nodup)
    (hinv : RInv n o m st) (cand : String × String × ℚ) :
    RInv n o m (resolveStep n o st cand) := by
  rw [resolveStep]
  split
  case isFalse _ => exact hinv
  case isTrue h =>
    obtain ⟨hap, hdp⟩ := h
    have faN : st.finalAdded.Nodup := hinv.fa_sub.nodup hka
    have delN : st.deleted.Nodup := hinv.del_sub.nodup hkd
    have hap_not : cand.1 ∉ st.results.map get_sort_key := hinv.fa_fresh _ hap
    have hdp_not : cand.2.1 ∉ renOlds st.results := hinv.del_fresh _ hdp
    refine
      { fa_sub := (List.erase_sublist _ _).trans hinv.fa_sub
        del_sub := (List.erase_sublist _ _).trans hinv.del_sub
        tg_nodup := ?_
        fa_fresh := ?_
        shapes := ?_
        olds_nodup := ?_
        del_fresh := ?_ }
    · rw [List.map_append, List.nodup_append]
      refine ⟨hinv.tg_nodup, by simp, ?_⟩
      simpa [get_sort_key, List.disjoint_singleton] using hap_not
    · intro p hp
      obtain ⟨hne, hpm⟩ := (faN.mem_erase_iff).mp hp
      rw [List.map_append, List.mem_append]
      rintro (hl | hl)
      · exact hinv.fa_fresh p hpm hl
      · simp only [List.map_cons, List.map_nil, List.mem_singleton, get_sort_key] at hl
        exact hne hl
    · intro r hr
      rcases List.mem_append.mp hr with hl | hl
      · exact hinv.shapes r hl
      · rw [List.mem_singleton] at hl
        subst hl
        exact ⟨hinv.del_sub.subset hdp, hinv.fa_sub.subset hap⟩
    · rw [renOlds, List.filterMap_append, List.nodup_append]
      refine ⟨hinv.olds_nodup, by simp, ?_⟩
      simpa [renOlds, List.disjoint_singleton] using hdp_not
    · intro p hp
      obtain ⟨hne, hpm⟩ := (delN.mem_erase_iff).mp hp
      rw [renOlds, List.filterMap_append, List.mem_append]
      rintro (hl | hl)
      · exact hinv.del_fresh p hpm hl
      · simp only [List.filterMap_cons, List.filterMap_nil, List.mem_singleton] at hl
        exact hne hl

theorem resolveRenames_inv {n o : Snap} {m : List String}
    (hka : (addedPathsOf n m).Nodup) (hkd : (deletedPathsOf n m).Nodup) :
    ∀ (cands : List (String × String × ℚ)) (st : ResolveState),
      RInv n o m st → RInv n o m (resolveRenames n o cands st) := by
  intro cands
  induction cands with
  | nil => intro st h; exact h
  | cons c cs ih =>
    intro st h
    rw [resolveRenames, List.foldl_cons]
    exact ih _ (resolveStep_inv hka hkd h c)

theorem resolveInit_inv {n o : Snap} {m : List String}
    (hm : m.Nodup) :
    RInv n o m (resolveInit n o m) := by
  have hmods : ∀ r ∈ modResultsOf n o m, ∀ ol nw a b,
      r ≠ FileStatus.Renamed ol nw a b := by
    intro r hr ol nw a b
    obtain ⟨q, a', b', hrr, _, _⟩ := modResultsOf_mem hr
    simp [hrr]
  have holds : renOlds (modResultsOf n o m) = [] := renOlds_eq_nil hmods
  refine
    { fa_sub := List.Sublist.refl _
      del_sub := List.Sublist.refl _
      tg_nodup :=
        (modResultsOf_targets_sublist n o m).nodup (commonPathsOf_nodup n hm)
      fa_fresh := ?_
      shapes := ?_
      olds_nodup := by rw [resolveInit]; simp only; rw [holds]; exact List.nodup_nil
      del_fresh := ?_ }
  · intro p hp hmem
    have hc : p ∈ commonPathsOf n m :=
      (modResultsOf_targets_sublist n o m).subset hmem
    have h1 : p ∉ m := (addedPathsOf_spec.mp hp).2
    exact h1 (commonPathsOf_spec.mp hc).1
  · intro r hr
    obtain ⟨q, a, b, hrr, hq, ho, _⟩ := modResultsOf_mem hr
    rw [hrr]
    exact ⟨hq, ho⟩
  · intro p hp
    rw [resolveInit]
    simp only
    rw [holds]
    exact List.not_mem_nil p

/-! ## After the copy loop -/

theorem removeCopyDests_sublist :
    ∀ (copies : List FileStatus) (fa : List String),
      (removeCopyDests copies fa).Sublist fa := by
  intro copies
  induction copies with
  | nil => intro fa; exact List.Sublist.refl _
  | cons r rs ih =>
    intro fa
    rw [removeCopyDests, List.foldl_cons]
    have step :
        (match r with
          | FileStatus.Copied _ d _ _ => fa.erase d
          | _ => fa).Sublist fa := by
      cases r
      case Copied => exact List.erase_sublist _ _
      all_goals exact List.Sublist.refl _
    exact (ih _).trans step

theorem not_mem_removeCopyDests {copies : List FileStatus} {fa : List String}
    {p : String} (h : p ∉ fa) : p ∉ removeCopyDests copies fa :=
  fun hmem => h ((removeCopyDests_sublist copies fa).subset hmem)

theorem dest_not_mem_removeCopyDests :
    ∀ (copies : List FileStatus) (fa : List String), fa.Nodup →
      ∀ {s d : String} {a b : Nat}, FileStatus.Copied s d a b ∈ copies →
      d ∉ removeCopyDests copies fa := by
  intro copies
  induction copies with
  | nil => intro fa _ s d a b h; exact absurd h (List.not_mem_nil _)
  | cons r rs ih =>
    intro fa hfa s d a b h
    rw [removeCopyDests, List.foldl_cons]
    rcases List.mem_cons.mp h with hr | hr
    · subst hr
      simp only
      exact not_mem_removeCopyDests (hfa.not_mem_erase)
    · have hstep :
          (match r with
            | FileStatus.Copied _ d' _ _ => fa.erase d'
            | _ => fa).Nodup := by
        cases r
        case Copied => exact hfa.erase _
        all_goals exact hfa
      exact ih _ hstep hr

theorem addedFlushOf_targets (n : Snap) (fa : List String) :
    (addedFlushOf n fa).map get_sort_key = fa := by
  rw [addedFlushOf, List.map_map]
  have hco :
      (get_sort_key ∘ fun p =>
        FileStatus.Added p (((lookupS n p).map (fun s => (linesOf s).length)).getD 0)) =
        id := by
    funext p; rfl
  rw [hco, List.map_id]

theorem deletedFlushOf_targets (o : Snap) (del : List String) :
    (deletedFlushOf o del).map get_sort_key = del := by
  rw [deletedFlushOf, List.map_map]
  have hco :
      (get_sort_key ∘ fun p =>
        FileStatus.Deleted p (((lookupS o p).map (fun s => (linesOf s).length)).getD 0)) =
        id := by
    funext p; rfl
  rw [hco, List.map_id]

theorem preSortResults_targets (n o : Snap) (m : List String) :
    (preSortResults n o m).map get_sort_key =
      ((resolvedState n o m).results.map get_sort_key)
        ++ ((copiesOf n o m).map get_sort_key)
        ++ finalAddedSet n o m
        ++ (resolvedState n o m).deleted := by
  rw [preSortResults, List.map_append, List.map_append, List.map_append,
    addedFlushOf_targets, deletedFlushOf_targets]

theorem ROk_target {n o : Snap} {m : List String} {r : FileStatus}
    (h : ROk n o m r) :
    get_sort_key r ∈ commonPathsOf n m ∨ get_sort_key r ∈ addedPathsOf n m := by
  cases r with
  | Modified q a b => exact Or.inl h.1
  | Renamed ol nw a b => exact Or.inr h.2
  | Added p c => exact absurd h (by simp [ROk])
  | Deleted p c => exact absurd h (by simp [ROk])
  | Copied s d a b => exact absurd h (by simp [ROk])

theorem resolved_inv {n o : Snap} {m : List String}
    (hkn : (keysOf n).Nodup) (hm : m.Nodup) :
    RInv n o m (resolvedState n o m) :=
  resolveRenames_inv (addedPathsOf_nodup m hkn) (deletedPathsOf_nodup n hm) _ _
    (resolveInit_inv hm)

theorem dests_not_mem_finalAddedSet {n o : Snap} {m : List String}
    (faN : (resolvedState n o m).finalAdded.Nodup) {p : String}
    (hp : p ∈ (copiesOf n o m).map get_sort_key) :
    p ∉ finalAddedSet n o m := by
  obtain ⟨r, hr, hkey⟩ := List.mem_map.mp hp
  obtain ⟨src, d, a, b, hrr, hd, _, _⟩ := copyResultsOf_mem hr
  subst hrr
  have hdp : d = p := hkey
  subst hdp
  exact dest_not_mem_removeCopyDests _ _ faN hr

theorem preSort_targets_nodup {n o : Snap} {m : List String}
    (hkn : (keysOf n).Nodup) (hm : m.Nodup) :
    ((preSortResults n o m).map get_sort_key).Nodup := by
  have hka := addedPathsOf_nodup m hkn
  have hkd := deletedPathsOf_nodup n hm
  have hinv := resolved_inv (n := n) (o := o) (m := m) hkn hm
  have faN : (resolvedState n o m).finalAdded.Nodup := hinv.fa_sub.nodup hka
  have delN : (resolvedState n o m).deleted.Nodup := hinv.del_sub.nodup hkd
  have hBsub : ((copiesOf n o m).map get_sort_key).Sublist
      (resolvedState n o m).finalAdded := copyResultsOf_dests_sublist n o _
  have hCsub : (finalAddedSet n o m).Sublist (resolvedState n o m).finalAdded :=
    removeCopyDests_sublist _ _
  rw [preSortResults_targets, List.append_assoc, List.append_assoc,
    List.nodup_append]
  refine ⟨hinv.tg_nodup, ?_, ?_⟩
  · rw [List.nodup_append]
    refine ⟨hBsub.nodup faN, ?_, ?_⟩
    · rw [List.nodup_append]
      refine ⟨hCsub.nodup faN, delN, ?_⟩
      intro p hpC hpD
      have h1 : p ∈ addedPathsOf n m := hinv.fa_sub.subset (hCsub.subset hpC)
      have h2 := (deletedPathsOf_spec.mp (hinv.del_sub.subset hpD)).2
      exact h2 (addedPathsOf_spec.mp h1).1
    · intro p hpB hpCD
      rcases List.mem_append.mp hpCD with hpC | hpD
      · exact dests_not_mem_finalAddedSet faN hpB hpC
      · have h1 : p ∈ addedPathsOf n m := hinv.fa_sub.subset (hBsub.subset hpB)
        have h2 := (deletedPathsOf_spec.mp (hinv.del_sub.subset hpD)).2
        exact h2 (addedPathsOf_spec.mp h1).1
  · intro p hpA hpR
    rcases List.mem_append.mp hpR with hpB | hpCD
    · exact hinv.fa_fresh p (hBsub.subset hpB) hpA
    rcases List.mem_append.mp hpCD with hpC | hpD
    · exact hinv.fa_fresh p (hCsub.subset hpC) hpA
    · obtain ⟨r, hr, rfl⟩ := List.mem_map.mp hpA
      have hdom := ROk_target (hinv.shapes r hr)
      have hdel := deletedPathsOf_spec.mp (hinv.del_sub.subset hpD)
      rcases hdom with hc | ha
      · exact hdel.2 (commonPathsOf_spec.mp hc).2
      · exact hdel.2 (addedPathsOf_spec.mp ha).1

theorem output_targets_nodup {n o : Snap} {m : List String}
    (hkn : (keysOf n).Nodup) (hm : m.Nodup) :
    ((compute_diff n o m).map get_sort_key).Nodup :=
  (((sortI_perm statusLe (preSortResults n o m)).map get_sort_key).nodup_iff).mpr
    (preSort_targets_nodup hkn hm)

/-! ## Shapes of all output records -/

/-- Where each kind of output record can come from. -/
def OutOK (n o : Snap) (m : List String) : FileStatus → Prop
  | FileStatus.Added p _ => p ∈ addedPathsOf n m
  | FileStatus.Deleted p _ => p ∈ deletedPathsOf n m
  | FileStatus.Modified q _ _ => q ∈ commonPathsOf n m ∧ (lookupS o q).isSome
  | FileStatus.Renamed ol nw _ _ => ol ∈ deletedPathsOf n m ∧ nw ∈ addedPathsOf n m
  | FileStatus.Copied s d _ _ => s ∈ keysOf o ∧ d ∈ addedPathsOf n m

theorem ROk_to_OutOK {n o : Snap} {m : List String} {r : FileStatus}
    (h : ROk n o m r) : OutOK n o m r := by
  cases r with
  | Modified q a b => exact h
  | Renamed ol nw a b => exact h
  | Added p c => exact absurd h (by simp [ROk])
  | Deleted p c => exact absurd h (by simp [ROk])
  | Copied s d a b => exact absurd h (by simp [ROk])

theorem preSort_shapes {n o : Snap} {m : List String} (hkn : (keysOf n).Nodup)
    (hm : m.Nodup) : ∀ r ∈ preSortResults n o m, OutOK n o m r := by
  have hinv := resolved_inv (n := n) (o := o) (m := m) hkn hm
  intro r hr
  rw [preSortResults] at hr
  rcases List.mem_append.mp hr with hr1 | hdel
  rcases List.mem_append.mp hr1 with hr2 | hadd
  rcases List.mem_append.mp hr2 with hres | hcop
  · exact ROk_to_OutOK (hinv.shapes r hres)
  · obtain ⟨src, d, a, b, hrr, hd, hsrc, _⟩ := copyResultsOf_mem hcop
    subst hrr
    exact ⟨hsrc, hinv.fa_sub.subset hd⟩
  · rw [addedFlushOf] at hadd
    obtain ⟨p, hp, hrr⟩ := List.mem_map.mp hadd
    subst hrr
    exact hinv.fa_sub.subset ((removeCopyDests_sublist _ _).subset hp)
  · rw [deletedFlushOf] at hdel
    obtain ⟨p, hp, hrr⟩ := List.mem_map.mp hdel
    subst hrr
    exact hinv.del_sub.subset hp

theorem output_shapes {n o : Snap} {m : List String} (hkn : (keysOf n).Nodup)
    (hm : m.Nodup) : ∀ r ∈ compute_diff n o m, OutOK n o m r := by
  intro r hr
  exact preSort_shapes hkn hm r (mem_sortI.mp hr)

/-! ## Remaining helper lemmas for the claims -/

theorem addedFlushOf_mem {n : Snap} {fa : List String} {r : FileStatus}
    (h : r ∈ addedFlushOf n fa) :
    ∃ p ∈ fa,
      r = FileStatus.Added p
        (((lookupS n p).map (fun s => (linesOf s).length)).getD 0) := by
  rw [addedFlushOf] at h
  obtain ⟨p, hp, hrr⟩ := List.mem_map.mp h
  exact ⟨p, hp, hrr.symm⟩

theorem deletedFlushOf_mem {o : Snap} {del : List String} {r : FileStatus}
    (h : r ∈ deletedFlushOf o del) :
    ∃ p ∈ del,
      r = FileStatus.Deleted p
        (((lookupS o p).map (fun s => (linesOf s).length)).getD 0) := by
  rw [deletedFlushOf] at h
  obtain ⟨p, hp, hrr⟩ := List.mem_map.mp h
  exact ⟨p, hp, hrr.symm⟩

theorem renOlds_append (l1 l2 : List FileStatus) :
    renOlds (l1 ++ l2) = renOlds l1 ++ renOlds l2 := by
  simp only [renOlds, List.filterMap_append]

theorem renNews_sublist_targets (l : List FileStatus) :
    (renNews l).Sublist (l.map get_sort_key) := by
  apply filterMap_sublist_map
  intro r b h
  cases r with
  | Renamed ol nw a c =>
    simp only [Option.some.injEq] at h
    rw [← h]; rfl
  | Added p c => exact absurd h (by simp)
  | Deleted p c => exact absurd h (by simp)
  | Modified p a c => exact absurd h (by simp)
  | Copied s d a c => exact absurd h (by simp)

theorem resolve_del_preserved {n o : Snap} {p : String} :
    ∀ (cands : List (String × String × ℚ)) (st : ResolveState),
      p ∈ st.deleted → (∀ c ∈ cands, c.2.1 ≠ p) →
      p ∈ (resolveRenames n o cands st).deleted := by
  intro cands
  induction cands with
  | nil => intro st hp _; exact hp
  | cons c cs ih =>
    intro st hp hc
    rw [resolveRenames, List.foldl_cons]
    apply ih
    · rw [resolveStep]
      split
      · exact (List.mem_erase_of_ne
          (fun he => hc c (List.mem_cons_self _ _) he.symm)).mpr hp
      · exact hp
    · intro c' hc'
      exact hc c' (List.mem_cons_of_mem _ hc')

theorem renameCandidatesOf_score {n o : Snap} {m : List String}
    {c : String × String × ℚ} (h : c ∈ renameCandidatesOf n o m) :
    0 ≤ c.2.2 ∧ c.2.2 ≤ 1 := by
  rw [renameCandidatesOf, List.mem_filterMap] at h
  obtain ⟨ap, hap, hf⟩ := h
  obtain ⟨h1, h2⟩ := renameCandidateFor_spec hf
  obtain ⟨hmem, ct, hct, hs⟩ := find_best_match_spec h2
  rw [hs]
  exact calculate_similarity_nonneg_le_one ct _

theorem length_filter_eq_key_le_one {α : Type} (f : α → String) (l : List α)
    (h : (l.map f).Nodup) (p : String) :
    (l.filter (fun r => f r == p)).length ≤ 1 := by
  induction l with
  | nil => simp
  | cons a as ih =>
    rw [List.map_cons, List.nodup_cons] at h
    rw [List.filter_cons]
    split
    · rename_i hfa
      have hfap : f a = p := by simpa using hfa
      have hnone : as.filter (fun r => f r == p) = [] := by
        rw [List.filter_eq_nil_iff]
        intro r hr hrp
        have hfr : f r = p := by simpa using hrp
        apply h.1
        rw [hfap, ← hfr]
        exact List.mem_map_of_mem f hr
      simp [hnone]
    · exact ih h.2

/-! ## Claim theorems on compute_diff -/

/-- Claim C10: in every output of `compute_diff` (well-formed inputs: maps
with distinct keys, manifest without duplicates), the sort keys are pairwise
distinct - no two records share the same target path, so the final lexical
ordering is uniquely determined independent of sort stability. -/
theorem compute_diff_sort_keys_distinct (n o : Snap) (m : List String)
    (hkn : (keysOf n).Nodup) (hm : m.Nodup) :
    ((compute_diff n o m).map get_sort_key).Nodup :=
  output_targets_nodup hkn hm

/-- Witness for `compute_diff_sort_keys_distinct` at a concrete input. -/
theorem compute_diff_sort_keys_distinct_witness :
    ((keysOf [("a", "x"), ("b", "y")]).Nodup ∧ (["a", "c"] : List String).Nodup) ∧
      ((compute_diff [("a", "x"), ("b", "y")] [("c", "z")] ["a", "c"]).map
          get_sort_key).Nodup :=
  ⟨⟨by decide, by decide⟩,
    compute_diff_sort_keys_distinct _ _ _ (by decide) (by decide)⟩

/-- Claim C1 counterexample: with old = new = (a maps to x) and manifest
containing a, the path a is in the union of the new key set and the manifest
but is the target of zero output records, not exactly one (an unchanged
common path produces no record). -/
theorem compute_diff_target_exactly_once_cex :
    ("a" ∈ keysOf [("a", "x")] ∨ "a" ∈ (["a"] : List String)) ∧
      ((compute_diff [("a", "x")] [("a", "x")] ["a"]).filter
          (fun r => get_sort_key r == "a")).length = 0 := by
  decide

/-- Claim C1 (amended): every path in the union of the new snapshot's key set
and the manifest is the target (path of Added/Deleted/Modified, new side of
Renamed, dest of Copied) of at most one record of the returned list. -/
theorem compute_diff_target_at_most_once (n o : Snap) (m : List String)
    (hkn : (keysOf n).Nodup) (hm : m.Nodup) (p : String)
    (_hp : p ∈ keysOf n ∨ p ∈ m) :
    ((compute_diff n o m).filter (fun r => get_sort_key r == p)).length ≤ 1 :=
  length_filter_eq_key_le_one get_sort_key _ (output_targets_nodup hkn hm) p

/-- Witness for `compute_diff_target_at_most_once` at a concrete input. -/
theorem compute_diff_target_at_most_once_witness :
    ((keysOf [("a", "x")]).Nodup ∧ (["a"] : List String).Nodup ∧
        ("a" ∈ keysOf [("a", "x")] ∨ "a" ∈ (["a"] : List String))) ∧
      ((compute_diff [("a", "x")] [("a", "x")] ["a"]).filter
          (fun r => get_sort_key r == "a")).length ≤ 1 :=
  ⟨⟨by decide, by decide, Or.inl (by decide)⟩,
    compute_diff_target_at_most_once _ _ _ (by decide) (by decide) "a"
      (Or.inl (by decide))⟩

/-- Claim C2: two hash-iteration orders of the same new-snapshot map (the two
association lists are permutations of each other, so they model the same
`HashMap` value) produce different outputs: both added files tie at score 1
for the single deleted file, the score sort has no tiebreaker, and the stable
sort leaves the candidates in iteration order, so which file is Renamed and
which is Copied depends on that order.  This refutes determinism of
`compute_diff` across runs, since the iteration order of a Rust `HashMap`
varies from process to process. -/
theorem compute_diff_order_dependent :
    [("b", "x\ny\n"), ("c", "x\ny\n")].Perm [("c", "x\ny\n"), ("b", "x\ny\n")] ∧
      compute_diff [("b", "x\ny\n"), ("c", "x\ny\n")] [("a", "x\ny\n")] ["a"] ≠
        compute_diff [("c", "x\ny\n"), ("b", "x\ny\n")] [("a", "x\ny\n")] ["a"] := by
  decide

/-- Claim C4: no two Renamed records of one output share an endpoint (new
sides pairwise distinct, old sides pairwise distinct), and a path that is the
old side of a Renamed record never also appears as the path of a Deleted
record of the same output. -/
theorem compute_diff_rename_endpoints (n o : Snap) (m : List String)
    (hkn : (keysOf n).Nodup) (hm : m.Nodup) :
    (renNews (compute_diff n o m)).Nodup ∧
      (renOlds (compute_diff n o m)).Nodup ∧
      (∀ ol ∈ renOlds (compute_diff n o m), ∀ k,
        FileStatus.Deleted ol k ∉ compute_diff n o m) := by
  have hinv := resolved_inv (n := n) (o := o) (m := m) hkn hm
  have hpermOlds : (renOlds (compute_diff n o m)).Perm
      (renOlds (preSortResults n o m)) :=
    (sortI_perm statusLe (preSortResults n o m)).filterMap _
  have hcopN : renOlds (copiesOf n o m) = [] := renOlds_eq_nil (by
    intro r hr ol nw a b
    obtain ⟨src, d, a', b', hrr, _, _, _⟩ := copyResultsOf_mem hr
    simp [hrr])
  have haddN : renOlds (addedFlushOf n (finalAddedSet n o m)) = [] :=
    renOlds_eq_nil (by
      intro r hr ol nw a b
      obtain ⟨p, hp, hrr⟩ := addedFlushOf_mem hr
      simp [hrr])
  have hdelN : renOlds (deletedFlushOf o (resolvedState n o m).deleted) = [] :=
    renOlds_eq_nil (by
      intro r hr ol nw a b
      obtain ⟨p, hp, hrr⟩ := deletedFlushOf_mem hr
      simp [hrr])
  have hsplit : renOlds (preSortResults n o m) =
      renOlds (resolvedState n o m).results := by
    rw [preSortResults, renOlds_append, renOlds_append, renOlds_append,
      hcopN, haddN, hdelN, List.append_nil, List.append_nil, List.append_nil]
  refine ⟨?_, ?_, ?_⟩
  · exact (renNews_sublist_targets _).nodup (output_targets_nodup hkn hm)
  · rw [hpermOlds.nodup_iff, hsplit]
    exact hinv.olds_nodup
  · intro ol hol k hmem
    have holres : ol ∈ renOlds (resolvedState n o m).results := by
      rw [← hsplit]
      exact hpermOlds.subset hol
    have hpre : FileStatus.Deleted ol k ∈ preSortResults n o m :=
      mem_sortI.mp hmem
    rw [preSortResults] at hpre
    rcases List.mem_append.mp hpre with h1 | hdel
    · rcases List.mem_append.mp h1 with h2 | hadd
      · rcases List.mem_append.mp h2 with hres | hcop
        · exact (hinv.shapes _ hres).elim
        · obtain ⟨src, d, a', b', hrr, _, _, _⟩ := copyResultsOf_mem hcop
          exact FileStatus.noConfusion hrr
      · obtain ⟨p, hp, hrr⟩ := addedFlushOf_mem hadd
        exact FileStatus.noConfusion hrr
    · obtain ⟨p, hp, hrr⟩ := deletedFlushOf_mem hdel
      have hop : ol = p := by injection hrr
      exact hinv.del_fresh p hp (hop ▸ holres)

/-- Witness for `compute_diff_rename_endpoints` at an input producing one
Renamed record. -/
theorem compute_diff_rename_endpoints_witness :
    ((keysOf [("b", "x\ny\n")]).Nodup ∧ (["a"] : List String).Nodup) ∧
      ((renNews (compute_diff [("b", "x\ny\n")] [("a", "x\ny\n")] ["a"])).Nodup ∧
        (renOlds (compute_diff [("b", "x\ny\n")] [("a", "x\ny\n")] ["a"])).Nodup ∧
        (∀ ol ∈ renOlds (compute_diff [("b", "x\ny\n")] [("a", "x\ny\n")] ["a"]),
          ∀ k, FileStatus.Deleted ol k ∉
            compute_diff [("b", "x\ny\n")] [("a", "x\ny\n")] ["a"])) :=
  ⟨⟨by decide, by decide⟩,
    compute_diff_rename_endpoints _ _ _ (by decide) (by decide)⟩

/-- Claim C3 counterexample: with empty snapshots and manifest containing a,
the path a is in the Deleted working set and absent from the old content map,
yet it is not dropped: `compute_diff` reports Deleted a 0 (the flush uses
`unwrap_or(0)` rather than skipping the path). -/
theorem compute_diff_missing_content_cex :
    "a" ∈ deletedPathsOf [] ["a"] ∧ lookupS [] "a" = none ∧
      compute_diff [] [] ["a"] = [FileStatus.Deleted "a" 0] := by
  decide

/-- Claim C3 (amended): a Common path absent from the old content map is
dropped entirely - no output record mentions it in any field (an Added path
is never absent from the new map, its content map); but a Deleted path absent
from the old content map is not dropped: it is still reported as Deleted with
line count 0.  `compute_diff` is a total function and never raises an error
to its caller. -/
theorem compute_diff_missing_content (n o : Snap) (m : List String)
    (hkn : (keysOf n).Nodup) (hm : m.Nodup) :
    (∀ p, p ∈ commonPathsOf n m → lookupS o p = none →
      ∀ r ∈ compute_diff n o m, mentions p r = false) ∧
      (∀ p, p ∈ deletedPathsOf n m → lookupS o p = none →
        FileStatus.Deleted p 0 ∈ compute_diff n o m) := by
  constructor
  · intro p hpc hpo r hr
    have hsh := output_shapes hkn hm r hr
    have hpm : p ∈ m := (commonPathsOf_spec.mp hpc).1
    have hpk : p ∈ keysOf n := (commonPathsOf_spec.mp hpc).2
    have hpko : p ∉ keysOf o := lookupS_eq_none_iff.mp hpo
    cases r with
    | Added q c =>
      have hne : q ≠ p := by
        intro he
        exact (addedPathsOf_spec.mp hsh).2 (by rw [he]; exact hpm)
      simp [mentions, hne]
    | Deleted q c =>
      have hne : q ≠ p := by
        intro he
        exact (deletedPathsOf_spec.mp hsh).2 (by rw [he]; exact hpk)
      simp [mentions, hne]
    | Modified q a b =>
      have hne : q ≠ p := by
        intro he
        have h2 := hsh.2
        rw [he, hpo] at h2
        simp at h2
      simp [mentions, hne]
    | Renamed ol nw a b =>
      have h1 : ol ≠ p := by
        intro he
        exact (deletedPathsOf_spec.mp hsh.1).2 (by rw [he]; exact hpk)
      have h2 : nw ≠ p := by
        intro he
        exact (addedPathsOf_spec.mp hsh.2).2 (by rw [he]; exact hpm)
      simp [mentions, h1, h2]
    | Copied s d a b =>
      have h1 : s ≠ p := by
        intro he
        exact hpko (by rw [← he]; exact hsh.1)
      have h2 : d ≠ p := by
        intro he
        exact (addedPathsOf_spec.mp hsh.2).2 (by rw [he]; exact hpm)
      simp [mentions, h1, h2]
  · intro p hpd hpo
    have hnotcand : ∀ c ∈ sortedCandidatesOf n o m, c.2.1 ≠ p := by
      intro c hc he
      have hcm := renameCandidatesOf_mem (mem_sortI.mp hc)
      have h2 := hcm.2.2
      rw [he, hpo] at h2
      simp at h2
    have hdel : p ∈ (resolvedState n o m).deleted :=
      resolve_del_preserved _ _ hpd hnotcand
    have hmem : FileStatus.Deleted p
        (((lookupS o p).map (fun s => (linesOf s).length)).getD 0)
        ∈ deletedFlushOf o (resolvedState n o m).deleted :=
      List.mem_map_of_mem _ hdel
    rw [hpo] at hmem
    simp only [Option.map_none', Option.getD_none] at hmem
    apply mem_sortI.mpr
    rw [preSortResults]
    exact List.mem_append.mpr (Or.inr hmem)

/-- Witness for `compute_diff_missing_content`: with new containing only a,
old empty, manifest containing a and d, the common path a (old content
missing) is mentioned by no record, and the deleted path d (old content
missing) is reported as Deleted d 0. -/
theorem compute_diff_missing_content_witness :
    ((keysOf [("a", "x")]).Nodup ∧ (["a", "d"] : List String).Nodup) ∧
      FileStatus.Deleted "d" 0 ∈ compute_diff [("a", "x")] [] ["a", "d"] ∧
      mentions "a" (FileStatus.Deleted "d" 0) = false := by
  have hd : FileStatus.Deleted "d" 0 ∈ compute_diff [("a", "x")] [] ["a", "d"] :=
    (compute_diff_missing_content [("a", "x")] [] ["a", "d"] (by decide)
        (by decide)).2 "d" (by decide) (by decide)
  refine ⟨⟨by decide, by decide⟩, hd, ?_⟩
  exact (compute_diff_missing_content [("a", "x")] [] ["a", "d"] (by decide)
      (by decide)).1 "a" (by decide) (by decide) _ hd

/-- Claim C9: the direct map indexes of `compute_diff` are always on present
keys: the new content of every added path (hence of every rename-candidate
added side and of every residual added path in the copy phase) is present in
the new map, the old content of every rename candidate's deleted path is
present in the old map, and every chosen copy source is a key of the old map.
Every rename-candidate score is moreover a real number in [0, 1] (in the ℚ
model of f64 there is no NaN), so the descending-score comparator of the
candidate sort is total. -/
theorem compute_diff_no_panics (n o : Snap) (m : List String) :
    (∀ p ∈ addedPathsOf n m, (lookupS n p).isSome) ∧
      (∀ c ∈ renameCandidatesOf n o m,
        (lookupS n c.1).isSome ∧ (lookupS o c.2.1).isSome ∧
          0 ≤ c.2.2 ∧ c.2.2 ≤ 1) ∧
      (∀ t src, bestCopySource o t = some src → (lookupS o src).isSome) := by
  have hadd : ∀ p ∈ addedPathsOf n m, (lookupS n p).isSome := by
    intro p hp
    exact lookupS_isSome_iff.mpr (addedPathsOf_spec.mp hp).1
  refine ⟨hadd, ?_, ?_⟩
  · intro c hc
    have h1 := renameCandidatesOf_mem hc
    have h2 := renameCandidatesOf_score hc
    exact ⟨hadd c.1 h1.1, h1.2.2, h2.1, h2.2⟩
  · intro t src hsrc
    exact lookupS_isSome_iff.mpr (bestCopySource_mem hsrc)

/-- Witness for `compute_diff_no_panics` at an input with one rename
candidate. -/
theorem compute_diff_no_panics_witness :
    (lookupS [("b", "x\ny\n")] "b").isSome ∧
      (lookupS [("a", "x\ny\n")] "a").isSome :=
  ⟨((compute_diff_no_panics [("b", "x\ny\n")] [("a", "x\ny\n")] ["a"]).2.1
      ("b", "a", 1) (by decide)).1,
    ((compute_diff_no_panics [("b", "x\ny\n")] [("a", "x\ny\n")] ["a"]).2.1
      ("b", "a", 1) (by decide)).2.1⟩

/-- Claim C8: the concrete scenario-4 run (old has a.txt, new has the same
a.txt plus a b.txt that extends it by one line, manifest has a.txt) returns
exactly one Copied record from a.txt to b.txt with 1 added and 0 removed
lines, and a.txt produces no record.  Both hash-iteration orders of the
two-entry new map give this same output. -/
theorem compute_diff_scenario4 :
    compute_diff
        [("a.txt", "l1\nl2\nl3\nl4\n"), ("b.txt", "l1\nl2\nl3\nl4\nextra\n")]
        [("a.txt", "l1\nl2\nl3\nl4\n")] ["a.txt"] =
      [FileStatus.Copied "a.txt" "b.txt" 1 0] ∧
    compute_diff
        [("b.txt", "l1\nl2\nl3\nl4\nextra\n"), ("a.txt", "l1\nl2\nl3\nl4\n")]
        [("a.txt", "l1\nl2\nl3\nl4\n")] ["a.txt"] =
      [FileStatus.Copied "a.txt" "b.txt" 1 0] := by
  decide
